import Mathlib

/-!
Verification of the matching/scoring and reconciliation core of
`spotify_upload_playlist_from_txt.py`.

Shallow embedding conventions:
* Python strings are modelled as `List Char`; `str.lower` is modelled
  per character by `Char.toLower` (ASCII case mapping), and the whitespace
  class of `\s` / `str.strip` by its six ASCII members.
* The Spotify backend is abstracted: search results are an oracle from the
  cascade position to the returned candidate list, and playlist mutations
  are interpreted over a local list of track uris.
* Machine floats appear only in `SequenceMatcher.ratio() * 30` truncated to
  `int`; this is modelled with exact rational arithmetic (numerator and
  floor division), as noted at `simTimes30`.
-/

namespace SpotifyUpload

/-- The whitespace characters of Python's `\s` regex class and `str.strip`
(ASCII part): space, tab, newline, carriage return, vertical tab, form feed. -/
def isSpace (c : Char) : Bool :=
  c = ' ' || c = '\t' || c = '\n' || c = '\r' || c = '\x0b' || c = '\x0c'

/-- `text.lower()` (per-character ASCII model). -/
def pyLower (l : List Char) : List Char := l.map Char.toLower

/-- `text.replace("&", "and")`. -/
def replaceAmp (l : List Char) : List Char :=
  l.flatMap (fun c => if c = '&' then ['a', 'n', 'd'] else [c])

/-- `re.sub(r"[./\-]", "", text)`: delete every `.`, `/` and `-`. -/
def stripPunct (l : List Char) : List Char :=
  l.filter (fun c => !(c = '.' || c = '/' || c = '-'))

/-- Helper for `collapseWS`: the flag records whether the previous character
was whitespace (in which case the current run already emitted its space). -/
def collapseWSAux : Bool → List Char → List Char
  | _, [] => []
  | false, c :: cs =>
    if isSpace c then ' ' :: collapseWSAux true cs
    else c :: collapseWSAux false cs
  | true, c :: cs =>
    if isSpace c then collapseWSAux true cs
    else c :: collapseWSAux false cs

/-- `re.sub(r"\s+", " ", text)`: each maximal whitespace run becomes one
single space. -/
def collapseWS (l : List Char) : List Char := collapseWSAux false l

/-- `text.strip()`: drop whitespace from both ends. -/
def pyStrip (l : List Char) : List Char :=
  ((l.dropWhile isSpace).reverse.dropWhile isSpace).reverse

/-- `normalize(text)` from the source: lowercase, `&` to `and`, delete the
characters `.` and `/` and `-`, collapse whitespace runs, trim the ends.  (The source's
`if not text: return ""` early exit is subsumed: every stage maps `[]` to
`[]`.) -/
def normalize (l : List Char) : List Char :=
  pyStrip (collapseWS (stripPunct (replaceAmp (pyLower l))))

/-- Tail admissible for the regex fragment `.*$` in `re.sub` (no
`re.MULTILINE`, no `re.DOTALL`): `.` does not match a newline, and `$`
matches at the end of the string or just before one trailing newline; so
every character except possibly a final newline must be a non-newline. -/
def liveTailOk (r : List Char) : Bool :=
  r.dropLast.all (fun c => c != '\n')

/-- Try to match the pattern `\s*-\s*live.*$` at the start of `t`.  On
success, return the characters of `t` that the substitution keeps (empty,
or the single trailing newline when `$` matched just before it); `none`
when the pattern does not match at this position. -/
def liveRest (t : List Char) : Option (List Char) :=
  match t.dropWhile isSpace with
  | [] => none
  | d :: t2 =>
    if d = '-' then
      let t3 := t2.dropWhile isSpace
      if "live".data.isPrefixOf t3 && liveTailOk (t3.drop 4) then
        some (if (t3.drop 4).getLast? = some '\n' then ['\n'] else [])
      else none
    else none

/-- `re.sub(r"\s*-\s*live.*$", "", name)`: delete the span of the leftmost
match of the pattern (the scan proceeds position by position from the
left; the remainder kept by a match contains no `-`, so no further match
is possible afterwards). -/
def stripLiveSuffix : List Char → List Char
  | [] => []
  | c :: cs =>
    match liveRest (c :: cs) with
    | some keep => keep
    | none => c :: stripLiveSuffix cs

/-- `normalize_track_for_matching(name)` from the source: `normalize`, then
the `- live...` suffix substitution. -/
def normalize_track_for_matching (l : List Char) : List Char :=
  stripLiveSuffix (normalize l)

/-! ### Shape of `normalize` output -/

/-- No two adjacent plain spaces. -/
def NotTwoSpaces (a b : Char) : Prop := ¬(a = ' ' ∧ b = ' ')

/-- Shape invariant satisfied by every `normalize` output: each character is
a plain space, or a lowercase-fixed character that is none of the replaced
or deleted ones and is not whitespace; no two adjacent spaces; no space at
either end. -/
def Normalized (l : List Char) : Prop :=
  (∀ c ∈ l, c = ' ' ∨
    (Char.toLower c = c ∧ c ≠ '&' ∧ c ≠ '.' ∧ c ≠ '/' ∧ c ≠ '-' ∧ isSpace c = false))
  ∧ List.Chain' NotTwoSpaces l ∧ l.head? ≠ some ' ' ∧ l.getLast? ≠ some ' '

theorem toLower_ofNat_shift (n : ℕ) (h1 : 65 ≤ n) (h2 : n ≤ 90) :
    Char.toLower (Char.ofNat (n + 32)) = Char.ofNat (n + 32) := by
  interval_cases n <;> decide

theorem toLower_toLower (c : Char) :
    Char.toLower (Char.toLower c) = Char.toLower c := by
  by_cases h : c.toNat ≥ 65 ∧ c.toNat ≤ 90
  · have hrw : Char.toLower c = Char.ofNat (c.toNat + 32) := by
      simp only [Char.toLower, if_pos h]
    rw [hrw]
    exact toLower_ofNat_shift c.toNat h.1 h.2
  · have hrw : Char.toLower c = c := by
      simp only [Char.toLower, if_neg h]
    rw [hrw]
    exact hrw

theorem mem_collapseWSAux {c : Char} :
    ∀ (l : List Char) (b : Bool), c ∈ collapseWSAux b l →
      c = ' ' ∨ (c ∈ l ∧ isSpace c = false) := by
  intro l
  induction l with
  | nil => intro b h; cases b <;> simp [collapseWSAux] at h
  | cons d ds ih =>
    intro b h
    by_cases hd : isSpace d = true
    · cases b with
      | true =>
        rw [show collapseWSAux true (d :: ds) = collapseWSAux true ds from by
          simp only [collapseWSAux]; rw [if_pos hd]] at h
        rcases ih true h with h' | ⟨h', h''⟩
        · exact Or.inl h'
        · exact Or.inr ⟨List.mem_cons_of_mem _ h', h''⟩
      | false =>
        rw [show collapseWSAux false (d :: ds) = ' ' :: collapseWSAux true ds from by
          simp only [collapseWSAux]; rw [if_pos hd]] at h
        rcases List.mem_cons.mp h with h' | h'
        · exact Or.inl h'
        · rcases ih true h' with h'' | ⟨h'', h'''⟩
          · exact Or.inl h''
          · exact Or.inr ⟨List.mem_cons_of_mem _ h'', h'''⟩
    · have hrw : collapseWSAux b (d :: ds) = d :: collapseWSAux false ds := by
        cases b <;> (simp only [collapseWSAux]; rw [if_neg hd])
      rw [hrw] at h
      rcases List.mem_cons.mp h with h' | h'
      · subst h'
        exact Or.inr ⟨List.mem_cons_self _ _, Bool.not_eq_true _ ▸ hd⟩
      · rcases ih false h' with h'' | ⟨h'', h'''⟩
        · exact Or.inl h''
        · exact Or.inr ⟨List.mem_cons_of_mem _ h'', h'''⟩

theorem head?_dropWhile {α : Type _} {p : α → Bool} :
    ∀ (l : List α) (c : α), (l.dropWhile p).head? = some c → p c = false := by
  intro l
  induction l with
  | nil => intro c h; simp at h
  | cons d ds ih =>
    intro c h
    rw [List.dropWhile_cons] at h
    by_cases hd : p d = true
    · rw [if_pos hd] at h
      exact ih c h
    · rw [if_neg hd] at h
      simp only [List.head?_cons, Option.some.injEq] at h
      subst h
      exact Bool.not_eq_true _ ▸ hd

theorem head?_collapseWSAux_true :
    ∀ (l : List Char) (c : Char), (collapseWSAux true l).head? = some c →
      isSpace c = false := by
  intro l
  induction l with
  | nil => intro c h; simp [collapseWSAux] at h
  | cons d ds ih =>
    intro c h
    by_cases hd : isSpace d = true
    · rw [show collapseWSAux true (d :: ds) = collapseWSAux true ds from by
        simp only [collapseWSAux]; rw [if_pos hd]] at h
      exact ih c h
    · rw [show collapseWSAux true (d :: ds) = d :: collapseWSAux false ds from by
        simp only [collapseWSAux]; rw [if_neg hd]] at h
      simp only [List.head?_cons, Option.some.injEq] at h
      subst h
      exact Bool.not_eq_true _ ▸ hd

theorem chain'_collapseWSAux :
    ∀ (l : List Char) (b : Bool), List.Chain' NotTwoSpaces (collapseWSAux b l) := by
  intro l
  induction l with
  | nil => intro b; cases b <;> simp [collapseWSAux]
  | cons d ds ih =>
    intro b
    by_cases hd : isSpace d = true
    · cases b with
      | true =>
        rw [show collapseWSAux true (d :: ds) = collapseWSAux true ds from by
          simp only [collapseWSAux]; rw [if_pos hd]]
        exact ih true
      | false =>
        rw [show collapseWSAux false (d :: ds) = ' ' :: collapseWSAux true ds from by
          simp only [collapseWSAux]; rw [if_pos hd]]
        rw [List.chain'_cons']
        refine ⟨?_, ih true⟩
        intro y hy
        rintro ⟨_, hy'⟩
        subst hy'
        have hcon : isSpace (' ' : Char) = false :=
          head?_collapseWSAux_true ds ' ' (Option.mem_def.mp hy)
        simp [isSpace] at hcon
    · rw [show collapseWSAux b (d :: ds) = d :: collapseWSAux false ds from by
        cases b <;> (simp only [collapseWSAux]; rw [if_neg hd])]
      rw [List.chain'_cons']
      refine ⟨?_, ih false⟩
      intro y _
      rintro ⟨hd', _⟩
      subst hd'
      simp [isSpace] at hd

theorem chain'_NTS_reverse {l : List Char} (h : List.Chain' NotTwoSpaces l) :
    List.Chain' NotTwoSpaces l.reverse := by
  rw [List.chain'_reverse]
  have hflip : flip NotTwoSpaces = NotTwoSpaces := by
    funext a b
    simp only [flip, NotTwoSpaces]
    exact propext ⟨fun h' ⟨h1, h2⟩ => h' ⟨h2, h1⟩, fun h' ⟨h1, h2⟩ => h' ⟨h2, h1⟩⟩
  rw [hflip]
  exact h

theorem pyStrip_sublist (l : List Char) : (pyStrip l).Sublist l := by
  unfold pyStrip
  have h1 : ((l.dropWhile isSpace).reverse.dropWhile isSpace).Sublist
      (l.dropWhile isSpace).reverse := List.dropWhile_sublist _
  have h2 := h1.reverse
  rw [List.reverse_reverse] at h2
  exact h2.trans (List.dropWhile_sublist _)

theorem normalize_mem {c : Char} {l : List Char} (h : c ∈ normalize l) :
    c = ' ' ∨
    (Char.toLower c = c ∧ c ≠ '&' ∧ c ≠ '.' ∧ c ≠ '/' ∧ c ≠ '-' ∧ isSpace c = false) := by
  unfold normalize at h
  have h1 := (pyStrip_sublist _).subset h
  rcases mem_collapseWSAux _ false h1 with h2 | ⟨h2, hns⟩
  · exact Or.inl h2
  right
  rw [stripPunct, List.mem_filter] at h2
  obtain ⟨h3, hpunct⟩ := h2
  have hpunct' : c ≠ '.' ∧ c ≠ '/' ∧ c ≠ '-' := by
    constructor
    · intro hc; subst hc; simp at hpunct
    constructor
    · intro hc; subst hc; simp at hpunct
    · intro hc; subst hc; simp at hpunct
  have h4 : (c = 'a' ∨ c = 'n' ∨ c = 'd') ∨ (c ∈ pyLower l ∧ c ≠ '&') := by
    rcases List.mem_flatMap.mp h3 with ⟨d, hd, hc⟩
    by_cases hd' : d = '&'
    · subst hd'
      rw [if_pos rfl] at hc
      rcases List.mem_cons.mp hc with h' | h'
      · exact Or.inl (Or.inl h')
      rcases List.mem_cons.mp h' with h'' | h''
      · exact Or.inl (Or.inr (Or.inl h''))
      rcases List.mem_cons.mp h'' with h''' | h'''
      · exact Or.inl (Or.inr (Or.inr h'''))
      · simp at h'''
    · rw [if_neg hd'] at hc
      simp only [List.mem_singleton] at hc
      subst hc
      exact Or.inr ⟨hd, hd'⟩
  have hlower : Char.toLower c = c := by
    rcases h4 with (h' | h' | h') | ⟨h', _⟩
    · subst h'; decide
    · subst h'; decide
    · subst h'; decide
    · rcases List.mem_map.mp h' with ⟨d, _, hd⟩
      subst hd
      exact toLower_toLower d
  have hamp : c ≠ '&' := by
    rcases h4 with (h' | h' | h') | ⟨_, h'⟩
    · subst h'; decide
    · subst h'; decide
    · subst h'; decide
    · exact h'
  exact ⟨hlower, hamp, hpunct'.1, hpunct'.2.1, hpunct'.2.2, hns⟩

theorem normalize_chain (l : List Char) : List.Chain' NotTwoSpaces (normalize l) := by
  unfold normalize pyStrip
  apply chain'_NTS_reverse
  apply List.Chain'.suffix _ (List.dropWhile_suffix _)
  apply chain'_NTS_reverse
  apply List.Chain'.suffix _ (List.dropWhile_suffix _)
  exact chain'_collapseWSAux _ false

theorem getLast?_of_suffix {α : Type _} {l₁ l₂ : List α}
    (h : l₁ <:+ l₂) (hne : l₁ ≠ []) : l₁.getLast? = l₂.getLast? := by
  obtain ⟨t, rfl⟩ := h
  rw [List.getLast?_append]
  cases hl : l₁.getLast? with
  | none =>
    exact absurd (List.getLast?_eq_none_iff.mp hl) hne
  | some c => rfl

theorem normalize_head (l : List Char) : (normalize l).head? ≠ some ' ' := by
  unfold normalize pyStrip
  intro hcontra
  rw [List.head?_reverse] at hcontra
  set A := (collapseWS (stripPunct (replaceAmp (pyLower l)))).dropWhile isSpace with hA
  set B := A.reverse.dropWhile isSpace with hB
  have hBne : B ≠ [] := by
    intro hnil
    rw [hnil] at hcontra
    simp at hcontra
  have h1 : B.getLast? = A.reverse.getLast? :=
    getLast?_of_suffix (List.dropWhile_suffix _) hBne
  rw [h1, List.getLast?_reverse] at hcontra
  have := head?_dropWhile _ ' ' hcontra
  simp [isSpace] at this

theorem normalize_last (l : List Char) : (normalize l).getLast? ≠ some ' ' := by
  unfold normalize pyStrip
  intro hcontra
  rw [List.getLast?_reverse] at hcontra
  have := head?_dropWhile _ ' ' hcontra
  simp [isSpace] at this

theorem normalize_normalized (l : List Char) : Normalized (normalize l) :=
  ⟨fun _ hc => normalize_mem hc, normalize_chain l, normalize_head l, normalize_last l⟩

/-! ### `Normalized` strings are fixed points of every stage -/

theorem pyLower_fixed {l : List Char} (h : ∀ c ∈ l, Char.toLower c = c) :
    pyLower l = l := by
  unfold pyLower
  rw [List.map_congr_left (g := id) (fun a ha => h a ha), List.map_id]

theorem replaceAmp_fixed {l : List Char} (h : ∀ c ∈ l, c ≠ '&') :
    replaceAmp l = l := by
  induction l with
  | nil => rfl
  | cons c cs ih =>
    unfold replaceAmp at *
    rw [List.flatMap_cons, if_neg (h c (List.mem_cons_self _ _)),
      ih (fun d hd => h d (List.mem_cons_of_mem _ hd))]
    rfl

theorem stripPunct_fixed {l : List Char}
    (h : ∀ c ∈ l, c ≠ '.' ∧ c ≠ '/' ∧ c ≠ '-') : stripPunct l = l := by
  unfold stripPunct
  rw [List.filter_eq_self]
  intro a ha
  obtain ⟨h1, h2, h3⟩ := h a ha
  simp [h1, h2, h3]

theorem collapseWSAux_fixed :
    ∀ (l : List Char),
      (∀ c ∈ l, isSpace c = true → c = ' ') → List.Chain' NotTwoSpaces l →
      collapseWSAux false l = l ∧ (l.head? ≠ some ' ' → collapseWSAux true l = l) := by
  intro l
  induction l with
  | nil => intro _ _; exact ⟨rfl, fun _ => rfl⟩
  | cons c cs ih =>
    intro hsp hch
    have ihcs := ih (fun d hd h => hsp d (List.mem_cons_of_mem _ hd) h) hch.tail
    by_cases hc : isSpace c = true
    · have hc' : c = ' ' := hsp c (List.mem_cons_self _ _) hc
      subst hc'
      constructor
      · have hcs_head : cs.head? ≠ some ' ' := by
          intro hh
          rcases cs with _ | ⟨d, ds⟩
          · simp at hh
          · simp only [List.head?_cons, Option.some.injEq] at hh
            subst hh
            exact (List.chain'_cons.mp hch).1 ⟨rfl, rfl⟩
        rw [show collapseWSAux false (' ' :: cs) = ' ' :: collapseWSAux true cs from by
          simp only [collapseWSAux]; rw [if_pos hc]]
        rw [ihcs.2 hcs_head]
      · intro hhead
        exact (hhead rfl).elim
    · constructor
      · rw [show collapseWSAux false (c :: cs) = c :: collapseWSAux false cs from by
          simp only [collapseWSAux]; rw [if_neg hc]]
        rw [ihcs.1]
      · intro _
        rw [show collapseWSAux true (c :: cs) = c :: collapseWSAux false cs from by
          simp only [collapseWSAux]; rw [if_neg hc]]
        rw [ihcs.1]

theorem dropWhile_eq_self_of_head {α : Type _} {p : α → Bool} {l : List α}
    (h : ∀ c, l.head? = some c → p c = false) : l.dropWhile p = l := by
  cases l with
  | nil => rfl
  | cons c cs =>
    rw [List.dropWhile_cons, if_neg]
    simp [h c rfl]

theorem pyStrip_fixed {l : List Char}
    (hmem : ∀ c ∈ l, c = ' ' ∨
      (Char.toLower c = c ∧ c ≠ '&' ∧ c ≠ '.' ∧ c ≠ '/' ∧ c ≠ '-' ∧ isSpace c = false))
    (hh : l.head? ≠ some ' ') (hl : l.getLast? ≠ some ' ') : pyStrip l = l := by
  have hns : ∀ c ∈ l, c ≠ ' ' → isSpace c = false := by
    intro c hc hne
    rcases hmem c hc with h' | h'
    · exact absurd h' hne
    · exact h'.2.2.2.2.2
  unfold pyStrip
  have h1 : l.dropWhile isSpace = l := by
    apply dropWhile_eq_self_of_head
    intro c hc
    have hcm : c ∈ l := by
      cases l with
      | nil => simp at hc
      | cons d ds =>
        simp only [List.head?_cons, Option.some.injEq] at hc
        subst hc
        exact List.mem_cons_self _ _
    exact hns c hcm (fun he => hh (he ▸ hc))
  have h2 : l.reverse.dropWhile isSpace = l.reverse := by
    apply dropWhile_eq_self_of_head
    intro c hc
    rw [List.head?_reverse] at hc
    have hcm : c ∈ l := by
      obtain ⟨hne, hx⟩ := List.mem_getLast?_eq_getLast (Option.mem_def.mpr hc)
      exact hx ▸ List.getLast_mem hne
    exact hns c hcm (fun he => hl (he ▸ hc))
  rw [h1, h2]
  exact List.reverse_reverse l

theorem normalized_fixed {l : List Char} (h : Normalized l) : normalize l = l := by
  obtain ⟨hmem, hch, hh, hl⟩ := h
  have hlow : ∀ c ∈ l, Char.toLower c = c := by
    intro c hc
    rcases hmem c hc with h' | h'
    · subst h'; decide
    · exact h'.1
  have hamp : ∀ c ∈ l, c ≠ '&' := by
    intro c hc
    rcases hmem c hc with h' | h'
    · subst h'; decide
    · exact h'.2.1
  have hpun : ∀ c ∈ l, c ≠ '.' ∧ c ≠ '/' ∧ c ≠ '-' := by
    intro c hc
    rcases hmem c hc with h' | h'
    · subst h'; refine ⟨by decide, by decide, by decide⟩
    · exact ⟨h'.2.2.1, h'.2.2.2.1, h'.2.2.2.2.1⟩
  have hsp : ∀ c ∈ l, isSpace c = true → c = ' ' := by
    intro c hc hs
    rcases hmem c hc with h' | h'
    · exact h'
    · rw [h'.2.2.2.2.2] at hs
      exact absurd hs (by simp)
  unfold normalize
  rw [pyLower_fixed hlow, replaceAmp_fixed hamp, stripPunct_fixed hpun]
  rw [show collapseWS l = l from (collapseWSAux_fixed l hsp hch).1]
  exact pyStrip_fixed hmem hh hl

/-- C8: `normalize` is idempotent: for every string `s`,
`normalize (normalize s) = normalize s`. -/
theorem normalize_idempotent : ∀ l : List Char, normalize (normalize l) = normalize l :=
  fun l => normalized_fixed (normalize_normalized l)

/-! ### The dead `- live` suffix substitution -/

theorem normalize_no_dash {l : List Char} : '-' ∉ normalize l := by
  intro h
  rcases normalize_mem h with h' | h'
  · exact absurd h' (by decide)
  · exact h'.2.2.2.2.1 rfl

theorem liveRest_eq_none {t : List Char} (h : '-' ∉ t) : liveRest t = none := by
  unfold liveRest
  split
  · rfl
  · rename_i d t2 heq
    rw [if_neg]
    intro hd
    subst hd
    exact h ((List.dropWhile_sublist _).subset (heq ▸ List.mem_cons_self _ _))

theorem stripLiveSuffix_eq_self {l : List Char} (h : '-' ∉ l) :
    stripLiveSuffix l = l := by
  induction l with
  | nil => rfl
  | cons c cs ih =>
    unfold stripLiveSuffix
    rw [liveRest_eq_none h]
    rw [ih (fun hc => h (List.mem_cons_of_mem _ hc))]

/-- C10: `normalize_track_for_matching` is extensionally equal to plain
`normalize`: `normalize` deletes every `-` character, so the subsequent
trailing `- live...` substitution can never find a match. -/
theorem normalize_track_for_matching_eq_normalize :
    ∀ l : List Char, normalize_track_for_matching l = normalize l :=
  fun _ => stripLiveSuffix_eq_self normalize_no_dash

/-- C3: evaluation at the failing input: a track name made of the title
`a` followed by the suffix ` - Live x` does not map to the same output as
the title `a` itself — the suffix survives (minus the deleted dash),
because after `normalize` no dash remains for the stripping regex to
match. -/
theorem live_suffix_not_stripped :
    normalize_track_for_matching "a - Live x".data = "a live x".data
    ∧ normalize_track_for_matching "a".data = "a".data
    ∧ "a live x".data ≠ "a".data := by
  exact ⟨by decide, by decide, by decide⟩

/-! ### Data model -/

/-- A catalog search result (a Spotify `track` dict): `uri`, `name`, the
artist names (`[a["name"] for a in track["artists"]]`) and the album name
(`track["album"]["name"]`). -/
structure Candidate where
  uri : List Char
  name : List Char
  artists : List (List Char)
  albumName : List Char
deriving DecidableEq

/-- A wanted entry parsed from the TXT playlist; an absent `artist` or
`album` key is the empty string (`entry.get(..., "")`). -/
structure Entry where
  track : List Char
  artist : List Char
  album : List Char
deriving DecidableEq

/-- `clean_album_name(album, artist)` from the source: when the normalized
album starts with `normalized_artist ++ " - "`, the original un-normalized
album string is sliced by the length of that normalized prefix and then
stripped; otherwise the album is returned unchanged.  (Since `normalize`
deletes every `-`, the test can never succeed; the embedding keeps the
code's exact form.) -/
def clean_album_name (album artist : List Char) : List Char :=
  if album = [] ∨ artist = [] then album
  else
    let album_norm := normalize album
    let artist_norm := normalize artist
    let pre := artist_norm ++ " - ".data
    if pre.isPrefixOf album_norm then pyStrip (album.drop pre.length)
    else album

/-! ### `similarity`: `difflib.SequenceMatcher(None, a, b).ratio()` -/

/-- The positions (ascending) at which character `c` occurs in `b` —
difflib's `b2j` table. -/
def occIdx (b : List Char) (c : Char) : List ℕ :=
  (b.enum.filter (fun p => p.2 == c)).map (fun p => p.1)

/-- Lookup with default `0` in an association list (difflib's
`j2len.get(j-1, 0)`). -/
def lookupD (m : List (ℕ × ℕ)) (j : ℕ) : ℕ :=
  match m.find? (fun p => p.1 == j) with
  | some p => p.2
  | none => 0

/-- `SequenceMatcher.find_longest_match` over the full ranges of `a` and
`b`: the dynamic program tracks, per position `j` of `b`, the length of the
longest common run ending at the current `(i, j)`; the leftmost longest
block `(besti, bestj, bestsize)` is kept (strict `>` update).  The source
passes `isjunk=None`, and the `autojunk` heuristic applies only when `b`
has ≥ 200 elements — junk is therefore not modelled here, which also makes
difflib's two post-loop junk-extension phases no-ops. -/
def flm (a b : List Char) : ℕ × ℕ × ℕ :=
  (a.enum.foldl
    (fun (st : List (ℕ × ℕ) × (ℕ × ℕ × ℕ)) (p : ℕ × Char) =>
      let row := (occIdx b p.2).map
        (fun j => (j, if j = 0 then 1 else lookupD st.1 (j - 1) + 1))
      let best := row.foldl
        (fun (bb : ℕ × ℕ × ℕ) (q : ℕ × ℕ) =>
          if bb.2.2 < q.2 then (p.1 + 1 - q.2, q.1 + 1 - q.2, q.2) else bb)
        st.2
      (row, best))
    ([], (0, 0, 0))).2

/-- The total size of all matching blocks — `get_matching_blocks` recursion
collapsed to the sum of block sizes.  `fuel` bounds the recursion depth;
the source recursion terminates because each split strictly shrinks the
`a`-range, so any fuel above `a.length` is enough. -/
def matchTotalF : ℕ → List Char → List Char → ℕ
  | 0, _, _ => 0
  | fuel + 1, a, b =>
    let r := flm a b
    if r.2.2 = 0 then 0
    else
      matchTotalF fuel (a.take r.1) (b.take r.2.1) + r.2.2 +
        matchTotalF fuel (a.drop (r.1 + r.2.2)) (b.drop (r.2.1 + r.2.2))

def matchTotal (a b : List Char) : ℕ := matchTotalF (a.length + 1) a b

/-- `int(similarity(a, b) * 30)` as used by `score_candidate`:
`SequenceMatcher.ratio()` is `2 * M / (len(a) + len(b))` (defined as `1.0`
when both strings are empty), so the truncated product with 30 is
`(60 * M) / (len(a) + len(b))` — modelled in exact integer floor division,
abstracting from binary floating-point rounding. -/
def simTimes30 (a b : List Char) : ℕ :=
  if a.length + b.length = 0 then 30
  else 60 * matchTotal a b / (a.length + b.length)

/-! ### `score_candidate` -/

/-- Python's `"live" in s` substring test. -/
def hasLive (s : List Char) : Bool := decide ("live".data <:+: s)

/-- The artist block of `score_candidate`: iterate over the candidate's
normalized artist names; the first name that matches decides the award
(+40 exact, else +25 for substring containment either way, each followed
by `break`); when no name matches at all, -10. -/
def artistLoop (ea : List Char) : List (List Char) → Int
  | [] => -10
  | a :: rest =>
    if ea = a then 40
    else if ea <:+: a ∨ a <:+: ea then 25
    else artistLoop ea rest

/-- `score_candidate(entry, track)` from the source, term by term in source
order: track name (+40 exact normalized match, else the similarity term),
live bias (+5), artist block (only when the normalized entry artist is
non-empty), album containment (+20), live-album compatibility (+10). -/
def score_candidate (entry : Entry) (track : Candidate) : Int :=
  let entry_track := normalize_track_for_matching entry.track
  let entry_artist := normalize entry.artist
  let entry_album := normalize (clean_album_name entry.album entry.artist)
  let track_name := normalize_track_for_matching track.name
  let track_artists := track.artists.map normalize
  let album_name := normalize track.albumName
  let s1 : Int :=
    if track_name = entry_track then 40 else (simTimes30 track_name entry_track : Int)
  let s2 : Int :=
    s1 + (if hasLive (normalize track.name) && !hasLive (normalize entry.track) then 5 else 0)
  let s3 : Int := s2 + (if entry_artist = [] then 0 else artistLoop entry_artist track_artists)
  let s4 : Int := s3 + (if entry_album ≠ [] ∧ entry_album <:+: album_name then 20 else 0)
  s4 + (if hasLive (normalize entry.album) && hasLive (normalize track.albumName) then 10 else 0)

/-- `is_exact_track_artist_match(entry, track)` from the source (the Python
function returns the truthiness of `entry_artist and entry_artist in
track_artists`). -/
def is_exact_track_artist_match (entry : Entry) (track : Candidate) : Bool :=
  let entry_track := normalize_track_for_matching entry.track
  let track_name := normalize_track_for_matching track.name
  if entry_track ≠ track_name then false
  else
    let entry_artist := normalize entry.artist
    let track_artists := track.artists.map normalize
    !entry_artist.isEmpty && track_artists.contains entry_artist

/-! ### C2 and C5: the artist term -/

theorem artistLoop_ge_25_of_mem {ea : List Char} :
    ∀ l : List (List Char), ea ∈ l → 25 ≤ artistLoop ea l := by
  intro l
  induction l with
  | nil => intro h; simp at h
  | cons a rest ih =>
    intro h
    unfold artistLoop
    by_cases h1 : ea = a
    · rw [if_pos h1]; norm_num
    · rw [if_neg h1]
      by_cases h2 : ea <:+: a ∨ a <:+: ea
      · rw [if_pos h2]
      · rw [if_neg h2]
        rcases List.mem_cons.mp h with h' | h'
        · exact absurd h' h1
        · exact ih h'

/-- C2 (amended): for every entry with non-empty normalized artist and
every candidate whose normalized track name equals the entry's and whose
normalized artist list contains the entry's normalized artist exactly, the
score is at least 65.  (The claimed bound 80 fails: an earlier listed
candidate artist that matches only by substring containment pre-empts the
exact +40 award with +25.) -/
theorem score_exact_match_at_least_65 (e : Entry) (c : Candidate)
    (ha : normalize e.artist ≠ [])
    (ht : normalize_track_for_matching c.name = normalize_track_for_matching e.track)
    (hm : normalize e.artist ∈ c.artists.map normalize) :
    65 ≤ score_candidate e c := by
  unfold score_candidate
  simp only
  rw [if_pos ht, if_neg ha]
  have h25 : 25 ≤ artistLoop (normalize e.artist) (c.artists.map normalize) :=
    artistLoop_ge_25_of_mem _ hm
  have h5 : (0 : Int) ≤
      (if hasLive (normalize c.name) && !hasLive (normalize e.track) then 5 else 0) := by
    split <;> norm_num
  have h20 : (0 : Int) ≤
      (if normalize (clean_album_name e.album e.artist) ≠ []
          ∧ normalize (clean_album_name e.album e.artist) <:+: normalize c.albumName
        then 20 else 0) := by
    split <;> norm_num
  have h10 : (0 : Int) ≤
      (if hasLive (normalize e.album) && hasLive (normalize c.albumName) then 10 else 0) := by
    split <;> norm_num
  linarith

/-- C2 (witness input shared with the counterexample): entry
`{track: "t", artist: "abc", album: ""}`. -/
def entryC2 : Entry := ⟨"t".data, "abc".data, "".data⟩

/-- C2: candidate `{name: "t", artists: ["abcd", "abc"], album: "z"}` whose
first artist part-matches and whose second artist matches exactly. -/
def candC2 : Candidate := ⟨"u".data, "t".data, ["abcd".data, "abc".data], "z".data⟩

/-- C2 (counterexample): at `entryC2` and `candC2` the normalized track
names are equal and the normalized entry artist occurs exactly among the
candidate's normalized artists, yet the score is 65 < 80: the partial
match on "abcd" pre-empts the exact match on "abc". -/
theorem score_exact_match_dominance_cex :
    normalize_track_for_matching candC2.name = normalize_track_for_matching entryC2.track
    ∧ normalize entryC2.artist ∈ candC2.artists.map normalize
    ∧ entryC2.artist ≠ [] ∧ normalize entryC2.artist ≠ []
    ∧ score_candidate entryC2 candC2 = 65
    ∧ ¬ (80 ≤ score_candidate entryC2 candC2) := by
  exact ⟨by decide, by decide, by decide, by decide, by decide, by decide⟩

/-- C2 (witness): the amended bound applied at `entryC2` / `candC2`. -/
theorem score_exact_match_at_least_65_witness : 65 ≤ score_candidate entryC2 candC2 :=
  score_exact_match_at_least_65 entryC2 candC2 (by decide) (by decide) (by decide)

/-- An entry artist name matches a candidate artist name: exactly, or by
substring containment in either direction. -/
def artistMatches (ea a : List Char) : Prop := ea = a ∨ ea <:+: a ∨ a <:+: ea

/-- C5 (amended): the artist term is decided by the first candidate artist
(in list order) that matches at all: it contributes exactly +40 when that
first matching name is an exact match and exactly +25 when it matches only
by containment; when no artist matches, it contributes exactly -10. -/
theorem artist_term_first_match (ea : List Char) :
    (∀ l : List (List Char), (∀ a ∈ l, ¬ artistMatches ea a) → artistLoop ea l = -10)
    ∧ (∀ (l1 : List (List Char)) (a : List Char) (l2 : List (List Char)),
        (∀ x ∈ l1, ¬ artistMatches ea x) → artistMatches ea a →
        artistLoop ea (l1 ++ a :: l2) = if ea = a then 40 else 25) := by
  constructor
  · intro l
    induction l with
    | nil => intro _; rfl
    | cons a rest ih =>
      intro h
      have hna := h a (List.mem_cons_self _ _)
      unfold artistLoop
      rw [if_neg (fun he => hna (Or.inl he)), if_neg (fun hi => hna (Or.inr hi))]
      exact ih (fun x hx => h x (List.mem_cons_of_mem _ hx))
  · intro l1
    induction l1 with
    | nil =>
      intro a l2 _ hma
      rw [List.nil_append]
      unfold artistLoop
      by_cases he : ea = a
      · rw [if_pos he, if_pos he]
      · rw [if_neg he, if_neg he]
        rcases hma with he' | hi
        · exact absurd he' he
        · rw [if_pos hi]
    | cons x l1' ih =>
      intro a l2 hl1 hma
      have hnx := hl1 x (List.mem_cons_self _ _)
      rw [List.cons_append]
      unfold artistLoop
      rw [if_neg (fun he => hnx (Or.inl he)), if_neg (fun hi => hnx (Or.inr hi))]
      exact ih a l2 (fun y hy => hl1 y (List.mem_cons_of_mem _ hy)) hma

/-- C5 (counterexample): the normalized entry artist "bb" occurs exactly
among the candidate artists ["bbc", "bb"], yet the artist term contributes
25, not the claimed 40: the earlier "bbc" matches by containment first. -/
theorem artist_term_exact_any_cex :
    "bb".data ∈ ["bbc".data, "bb".data]
    ∧ artistLoop "bb".data ["bbc".data, "bb".data] = 25
    ∧ (25 : Int) ≠ 40 := by
  exact ⟨by decide, by decide, by decide⟩

/-- C5 (witness): both parts of the amended characterization applied at
concrete inputs: no artist matches "q" in `[]` (term -10); "q" matches the
head of `["q"]` exactly (term +40). -/
theorem artist_term_first_match_witness :
    artistLoop "q".data [] = -10
    ∧ artistLoop "q".data ([] ++ "q".data :: []) = if "q".data = "q".data then 40 else 25 :=
  ⟨(artist_term_first_match "q".data).1 [] (by intro a ha; simp at ha),
   (artist_term_first_match "q".data).2 [] "q".data []
     (by intro x hx; simp at hx) (Or.inl rfl)⟩

/-! ### The query cascade and the match selector -/

/-- The cascade queries `search_track_with_scoring` can issue, identified
by their shape and cascade position (the concrete query string is a
function of the entry). -/
inductive Query
  | trackArtist
  | trackOnly
  | trackAlbum
  | artistOnly
deriving DecidableEq

/-- The search query cascade of `search_track_with_scoring`, in source
order: `track:"..." artist:"..."` and (last) `artist:"..."` only when the
entry's raw artist string is truthy (non-empty); `track:"..."` always;
`track:"..." album:"..."` only when the raw album string is non-empty. -/
def build_queries (e : Entry) : List Query :=
  (if e.artist ≠ [] then [Query.trackArtist] else [])
    ++ [Query.trackOnly]
    ++ (if e.album ≠ [] then [Query.trackAlbum] else [])
    ++ (if e.artist ≠ [] then [Query.artistOnly] else [])

/-- The inner candidate loop of `search_track_with_scoring`: score each
candidate in order; `return track["uri"]` (modelled as `.error uri`) as
soon as a score reaches 85; otherwise keep the best-scoring candidate so
far under a strict `score > best_score` update (`best_score` starts 0). -/
def candLoop (e : Entry) : List Candidate → Option Candidate × Int →
    Except (List Char) (Option Candidate × Int)
  | [], st => .ok st
  | t :: ts, st =>
    if 85 ≤ score_candidate e t then .error t.uri
    else if st.2 < score_candidate e t then candLoop e ts (some t, score_candidate e t)
    else candLoop e ts st

/-- The decision `search_track_with_scoring` makes once a query has
returned a non-empty candidate list: an 85+ candidate returns its uri
immediately; otherwise the best candidate's uri is returned when its score
is ≥ 55, or when it passes `is_exact_track_artist_match` with score ≥ 50;
else `None` (the unconditional `return None` ending the loop body). -/
def handleNonEmpty (e : Entry) (candidates : List Candidate)
    (st : Option Candidate × Int) : Option (List Char) :=
  match candLoop e candidates st with
  | .error uri => some uri
  | .ok (some t, bs) =>
    if 55 ≤ bs then some t.uri
    else if is_exact_track_artist_match e t = true ∧ 50 ≤ bs then some t.uri
    else none
  | .ok (none, _) => none

/-- The query loop: a query whose result is empty is skipped (`continue`);
the first query with candidates decides the outcome. -/
def queryLoop (e : Entry) (s : Query → List Candidate) :
    List Query → Option Candidate × Int → Option (List Char)
  | [], _ => none
  | q :: qs, st =>
    if s q = [] then queryLoop e s qs st
    else handleNonEmpty e (s q) st

/-- `search_track_with_scoring(entry)` from the source, with the backend
search abstracted as an oracle `s` from cascade query to the (at most 25)
candidates the backend returned for it. -/
def search_track_with_scoring (e : Entry) (s : Query → List Candidate) :
    Option (List Char) :=
  queryLoop e s (build_queries e) (none, 0)

/-! ### Selector lemmas -/

theorem queryLoop_all_empty (e : Entry) (s : Query → List Candidate) :
    ∀ (qs : List Query) (st : Option Candidate × Int),
      (∀ q ∈ qs, s q = []) → queryLoop e s qs st = none := by
  intro qs
  induction qs with
  | nil => intro st _; rfl
  | cons q qs' ih =>
    intro st h
    unfold queryLoop
    rw [if_pos (h q (List.mem_cons_self _ _))]
    exact ih st (fun x hx => h x (List.mem_cons_of_mem _ hx))

theorem queryLoop_skip (e : Entry) (s : Query → List Candidate) :
    ∀ (qs₁ : List Query) (q : Query) (qs₂ : List Query) (st : Option Candidate × Int),
      (∀ x ∈ qs₁, s x = []) → s q ≠ [] →
      queryLoop e s (qs₁ ++ q :: qs₂) st = handleNonEmpty e (s q) st := by
  intro qs₁
  induction qs₁ with
  | nil =>
    intro q qs₂ st _ hq
    rw [List.nil_append]
    unfold queryLoop
    rw [if_neg hq]
  | cons x qs₁' ih =>
    intro q qs₂ st h hq
    rw [List.cons_append]
    unfold queryLoop
    rw [if_pos (h x (List.mem_cons_self _ _))]
    exact ih q qs₂ st (fun y hy => h y (List.mem_cons_of_mem _ hy)) hq

theorem candLoop_early (e : Entry) :
    ∀ (l1 : List Candidate) (c : Candidate) (l2 : List Candidate)
      (st : Option Candidate × Int),
      (∀ x ∈ l1, score_candidate e x < 85) → 85 ≤ score_candidate e c →
      candLoop e (l1 ++ c :: l2) st = .error c.uri := by
  intro l1
  induction l1 with
  | nil =>
    intro c l2 st _ hc
    rw [List.nil_append]
    unfold candLoop
    rw [if_pos hc]
  | cons x l1' ih =>
    intro c l2 st h hc
    have hx := h x (List.mem_cons_self _ _)
    rw [List.cons_append]
    unfold candLoop
    rw [if_neg (by omega : ¬ (85 ≤ score_candidate e x))]
    by_cases hlt : st.2 < score_candidate e x
    · rw [if_pos hlt]
      exact ih c l2 _ (fun y hy => h y (List.mem_cons_of_mem _ hy)) hc
    · rw [if_neg hlt]
      exact ih c l2 _ (fun y hy => h y (List.mem_cons_of_mem _ hy)) hc

/-- The pure fold performed on the best (track, score) state when no
candidate reaches 85. -/
def bestStep (e : Entry) (st : Option Candidate × Int) (c : Candidate) :
    Option Candidate × Int :=
  if st.2 < score_candidate e c then (some c, score_candidate e c) else st

theorem candLoop_no85 (e : Entry) :
    ∀ (cs : List Candidate) (st : Option Candidate × Int),
      (∀ c ∈ cs, score_candidate e c < 85) →
      candLoop e cs st = .ok (cs.foldl (bestStep e) st) := by
  intro cs
  induction cs with
  | nil => intro st _; rfl
  | cons c rest ih =>
    intro st h
    have hc := h c (List.mem_cons_self _ _)
    unfold candLoop
    rw [if_neg (by omega : ¬ (85 ≤ score_candidate e c))]
    rw [List.foldl_cons]
    by_cases hlt : st.2 < score_candidate e c
    · rw [if_pos hlt,
        show bestStep e st c = (some c, score_candidate e c) from by
          unfold bestStep; rw [if_pos hlt]]
      exact ih _ (fun y hy => h y (List.mem_cons_of_mem _ hy))
    · rw [if_neg hlt,
        show bestStep e st c = st from by unfold bestStep; rw [if_neg hlt]]
      exact ih _ (fun y hy => h y (List.mem_cons_of_mem _ hy))

theorem le_foldl_max : ∀ (l : List Int) (b : Int), b ≤ l.foldl max b := by
  intro l
  induction l with
  | nil => intro b; exact le_refl b
  | cons x xs ih =>
    intro b
    rw [List.foldl_cons]
    exact le_trans (le_max_left b x) (ih (max b x))

theorem foldl_max_lt : ∀ (l : List Int) (b k : Int),
    (∀ x ∈ l, x < k) → b < k → l.foldl max b < k := by
  intro l
  induction l with
  | nil => intro b k _ hb; exact hb
  | cons x xs ih =>
    intro b k h hb
    rw [List.foldl_cons]
    exact ih _ k (fun y hy => h y (List.mem_cons_of_mem _ hy))
      (max_lt hb (h x (List.mem_cons_self _ _)))

theorem foldl_bestStep_spec (e : Entry) :
    ∀ (cs : List Candidate) (bt0 : Option Candidate) (bs0 : Int),
      cs.foldl (bestStep e) (bt0, bs0) =
        (if bs0 < (cs.map (score_candidate e)).foldl max bs0 then
            cs.find? (fun c => score_candidate e c == (cs.map (score_candidate e)).foldl max bs0)
          else bt0,
          (cs.map (score_candidate e)).foldl max bs0) := by
  intro cs
  induction cs with
  | nil =>
    intro bt0 bs0
    simp
  | cons c rest ih =>
    intro bt0 bs0
    rw [List.foldl_cons, List.map_cons, List.foldl_cons]
    by_cases hlt : bs0 < score_candidate e c
    · rw [show bestStep e (bt0, bs0) c = (some c, score_candidate e c) from by
        unfold bestStep; rw [if_pos hlt]]
      rw [ih (some c) (score_candidate e c)]
      rw [max_eq_right (le_of_lt hlt)]
      have hscM : score_candidate e c ≤
          (rest.map (score_candidate e)).foldl max (score_candidate e c) :=
        le_foldl_max _ _
      by_cases h2 : score_candidate e c <
          (rest.map (score_candidate e)).foldl max (score_candidate e c)
      · rw [if_pos h2, if_pos (lt_of_lt_of_le hlt hscM)]
        rw [List.find?_cons]
        have hne : (score_candidate e c ==
            (rest.map (score_candidate e)).foldl max (score_candidate e c)) = false := by
          simp only [beq_eq_false_iff_ne, ne_eq]
          omega
        rw [hne]
      · have hMe : (rest.map (score_candidate e)).foldl max (score_candidate e c) =
            score_candidate e c := le_antisymm (not_lt.mp h2) hscM
        rw [if_neg h2, if_pos (show bs0 < _ from by rw [hMe]; exact hlt)]
        rw [List.find?_cons]
        have heq : (score_candidate e c ==
            (rest.map (score_candidate e)).foldl max (score_candidate e c)) = true := by
          simp only [beq_iff_eq]
          omega
        rw [heq]
    · rw [show bestStep e (bt0, bs0) c = (bt0, bs0) from by
        unfold bestStep; rw [if_neg hlt]]
      rw [ih bt0 bs0]
      rw [max_eq_left (not_lt.mp hlt)]
      have hbs0M : bs0 ≤ (rest.map (score_candidate e)).foldl max bs0 := le_foldl_max _ _
      by_cases h2 : bs0 < (rest.map (score_candidate e)).foldl max bs0
      · rw [if_pos h2, if_pos h2]
        rw [List.find?_cons]
        have hne : (score_candidate e c ==
            (rest.map (score_candidate e)).foldl max bs0) = false := by
          simp only [beq_eq_false_iff_ne, ne_eq]
          omega
        rw [hne]
      · rw [if_neg h2, if_neg h2]

theorem handleNonEmpty_no85 (e : Entry) (cs : List Candidate)
    (h85 : ∀ c ∈ cs, score_candidate e c < 85) :
    handleNonEmpty e cs (none, 0) =
      match cs.find? (fun c =>
          score_candidate e c == (cs.map (score_candidate e)).foldl max 0) with
      | some c =>
        if 55 ≤ (cs.map (score_candidate e)).foldl max 0 then some c.uri
        else if is_exact_track_artist_match e c = true
            ∧ 50 ≤ (cs.map (score_candidate e)).foldl max 0 then some c.uri
        else none
      | none => none := by
  unfold handleNonEmpty
  rw [candLoop_no85 e cs (none, 0) h85, foldl_bestStep_spec]
  by_cases h0 : (0 : Int) < (cs.map (score_candidate e)).foldl max 0
  · rw [if_pos h0]
    cases hf : cs.find? (fun c =>
        score_candidate e c == (cs.map (score_candidate e)).foldl max 0) with
    | some c => rfl
    | none => rfl
  · rw [if_neg h0]
    have hM0 : (cs.map (score_candidate e)).foldl max 0 = 0 :=
      le_antisymm (not_lt.mp h0) (le_foldl_max _ _)
    cases hf : cs.find? (fun c =>
        score_candidate e c == (cs.map (score_candidate e)).foldl max 0) with
    | some c =>
      rw [hM0]
      simp
    | none => rfl

/-- C1: the cascade policy of `search_track_with_scoring`: (i) when every
cascade query returns zero candidates the selector returns `None`; (ii)
the outcome is decided entirely by the first query that returns any
candidates — two backends agreeing on the earlier (all-empty) queries and
on that query's candidate list yield the same outcome, regardless of what
any later query would return; (iii) when every candidate of that first
non-empty query scores below 50 (hence below every acceptance threshold),
the selector returns `None` rather than trying later queries. -/
theorem search_cascade_policy :
    (∀ (e : Entry) (s : Query → List Candidate),
        (∀ q ∈ build_queries e, s q = []) → search_track_with_scoring e s = none)
    ∧ (∀ (e : Entry) (s₁ s₂ : Query → List Candidate) (qs₁ : List Query) (q : Query)
          (qs₂ : List Query),
        build_queries e = qs₁ ++ q :: qs₂ →
        (∀ x ∈ qs₁, s₁ x = []) → (∀ x ∈ qs₁, s₂ x = []) →
        s₁ q = s₂ q → s₁ q ≠ [] →
        search_track_with_scoring e s₁ = search_track_with_scoring e s₂)
    ∧ (∀ (e : Entry) (s : Query → List Candidate) (qs₁ : List Query) (q : Query)
          (qs₂ : List Query),
        build_queries e = qs₁ ++ q :: qs₂ →
        (∀ x ∈ qs₁, s x = []) → s q ≠ [] →
        (∀ c ∈ s q, score_candidate e c < 50) →
        search_track_with_scoring e s = none) := by
  refine ⟨?_, ?_, ?_⟩
  · intro e s h
    exact queryLoop_all_empty e s _ _ h
  · intro e s₁ s₂ qs₁ q qs₂ hbq h1 h2 heq hne
    unfold search_track_with_scoring
    rw [hbq, queryLoop_skip e s₁ qs₁ q qs₂ _ h1 hne,
      queryLoop_skip e s₂ qs₁ q qs₂ _ h2 (heq ▸ hne), heq]
  · intro e s qs₁ q qs₂ hbq h1 hne h50
    unfold search_track_with_scoring
    rw [hbq, queryLoop_skip e s qs₁ q qs₂ _ h1 hne]
    rw [handleNonEmpty_no85 e (s q) (fun c hc => lt_trans (h50 c hc) (by norm_num))]
    have hMlt : ((s q).map (score_candidate e)).foldl max 0 < 50 :=
      foldl_max_lt _ _ _
        (fun x hx => by
          rcases List.mem_map.mp hx with ⟨c, hc, rfl⟩
          exact h50 c hc)
        (by norm_num)
    cases hf : (s q).find? (fun c =>
        score_candidate e c == ((s q).map (score_candidate e)).foldl max 0) with
    | some c =>
      have h55 : ¬ (55 ≤ ((s q).map (score_candidate e)).foldl max 0) := by omega
      have h50x : ¬ (50 ≤ ((s q).map (score_candidate e)).foldl max 0) := by omega
      simp [h55, h50x]
    | none => rfl

/-- C1 (witness inputs): an entry with no artist and no album (cascade is
just the track-only query) and a single candidate scoring 40. -/
def entryC1 : Entry := ⟨"t".data, "".data, "".data⟩

/-- C1 (witness inputs): candidate with the same track name, no artists. -/
def candC1 : Candidate := ⟨"u".data, "t".data, [], "w".data⟩

/-- C1 (witness): the three parts applied at concrete inputs. -/
theorem search_cascade_policy_witness :
    search_track_with_scoring entryC1 (fun _ => []) = none
    ∧ search_track_with_scoring entryC1 (fun _ => [candC1])
        = search_track_with_scoring entryC1 (fun _ => [candC1])
    ∧ search_track_with_scoring entryC1 (fun _ => [candC1]) = none :=
  ⟨search_cascade_policy.1 entryC1 (fun _ => []) (fun _ _ => rfl),
   search_cascade_policy.2.1 entryC1 (fun _ => [candC1]) (fun _ => [candC1])
     [] Query.trackOnly [] (by decide) (fun x hx => by simp at hx)
     (fun x hx => by simp at hx) rfl (by decide),
   search_cascade_policy.2.2 entryC1 (fun _ => [candC1]) [] Query.trackOnly []
     (by decide) (fun x hx => by simp at hx) (by decide) (by decide)⟩

/-- C4: selection within the first candidate-yielding query: (i) the
selector returns the uri of the first candidate scoring ≥ 85, whatever
candidates follow it; (ii) otherwise (all scores < 85) the outcome is
determined by the best score `M` (fold of `max` over the scores, starting
from the initial best 0) and the first candidate attaining it: its uri
when `M ≥ 55`; its uri when it passes the exact normalized (track, artist)
test and `M ≥ 50`; `None` otherwise. -/
theorem search_first_query_selection :
    (∀ (e : Entry) (s : Query → List Candidate) (qs₁ : List Query) (q : Query)
        (qs₂ : List Query) (l1 : List Candidate) (c : Candidate) (l2 : List Candidate),
      build_queries e = qs₁ ++ q :: qs₂ → (∀ x ∈ qs₁, s x = []) →
      s q = l1 ++ c :: l2 →
      (∀ x ∈ l1, score_candidate e x < 85) → 85 ≤ score_candidate e c →
      search_track_with_scoring e s = some c.uri)
    ∧ (∀ (e : Entry) (s : Query → List Candidate) (qs₁ : List Query) (q : Query)
        (qs₂ : List Query),
      build_queries e = qs₁ ++ q :: qs₂ → (∀ x ∈ qs₁, s x = []) → s q ≠ [] →
      (∀ c ∈ s q, score_candidate e c < 85) →
      search_track_with_scoring e s =
        match (s q).find? (fun c =>
            score_candidate e c == ((s q).map (score_candidate e)).foldl max 0) with
        | some c =>
          if 55 ≤ ((s q).map (score_candidate e)).foldl max 0 then some c.uri
          else if is_exact_track_artist_match e c = true
              ∧ 50 ≤ ((s q).map (score_candidate e)).foldl max 0 then some c.uri
          else none
        | none => none) := by
  constructor
  · intro e s qs₁ q qs₂ l1 c l2 hbq hemp hsplit hl1 hc
    have hne : s q ≠ [] := by
      rw [hsplit]
      simp
    unfold search_track_with_scoring
    rw [hbq, queryLoop_skip e s qs₁ q qs₂ _ hemp hne]
    unfold handleNonEmpty
    rw [hsplit, candLoop_early e l1 c l2 _ hl1 hc]
  · intro e s qs₁ q qs₂ hbq hemp hne h85
    unfold search_track_with_scoring
    rw [hbq, queryLoop_skip e s qs₁ q qs₂ _ hemp hne]
    exact handleNonEmpty_no85 e (s q) h85

/-- C4 (witness inputs): entry `{track: "t", artist: "ab", album: "al"}`;
the cascade starts with the track+artist query. -/
def entryC4 : Entry := ⟨"t".data, "ab".data, "al".data⟩

/-- C4 (witness inputs): candidate scoring 100 (track 40 + artist 40 +
album 20), triggering the 85+ immediate accept. -/
def candC4hi : Candidate := ⟨"u1".data, "t".data, ["ab".data], "al".data⟩

/-- C4 (witness inputs): candidate scoring 80 (track 40 + artist 40),
accepted through the best-score ≥ 55 path. -/
def candC4lo : Candidate := ⟨"u2".data, "t".data, ["ab".data], "z".data⟩

/-- C4 (witness): both parts applied at concrete inputs. -/
theorem search_first_query_selection_witness :
    search_track_with_scoring entryC4
      (fun q => match q with | Query.trackArtist => [candC4hi] | _ => []) = some "u1".data
    ∧ search_track_with_scoring entryC4
      (fun q => match q with | Query.trackArtist => [candC4lo] | _ => []) = some "u2".data := by
  constructor
  · exact search_first_query_selection.1 entryC4
      (fun q => match q with | Query.trackArtist => [candC4hi] | _ => [])
      [] Query.trackArtist [Query.trackOnly, Query.trackAlbum, Query.artistOnly]
      [] candC4hi []
      (by decide) (fun x hx => by simp at hx) rfl (fun x hx => by simp at hx) (by decide)
  · exact (search_first_query_selection.2 entryC4
      (fun q => match q with | Query.trackArtist => [candC4lo] | _ => [])
      [] Query.trackArtist [Query.trackOnly, Query.trackAlbum, Query.artistOnly]
      (by decide) (fun x hx => by simp at hx) (by decide) (by decide)).trans (by decide)

/-! ### Playlist reconciliation and synchronization (`main`) -/

/-- `ADD_BATCH_SIZE` from the source configuration. -/
def ADD_BATCH_SIZE : ℕ := 100

/-- `REMOVE_BATCH_SIZE` from the source configuration. -/
def REMOVE_BATCH_SIZE : ℕ := 100

/-- The two upload modes of `main`: append (default) and `--overwrite`. -/
inductive Mode
  | append
  | overwrite
deriving DecidableEq

/-- The add/remove work `main` derives from the resolved uris and the
fetched membership: in append mode
`uris_to_add = [u for u in found_uris if u not in existing_uris]` and
nothing is removed; in overwrite mode the full `found_uris` list is added
and the whole `existing_uris_list` removed.  Returned as
`(to_add, to_remove)`. -/
def reconcile (mode : Mode) (found existing : List (List Char)) :
    List (List Char) × List (List Char) :=
  match mode with
  | .append => (found.filter (fun u => !(existing.contains u)), [])
  | .overwrite => (found, existing)

/-- `chunked(items, size)` from the source (`items[i:i+size]` slices for
`i = 0, size, 2*size, ...`), with a structural fuel bounding the number of
slices; each step consumes at least one element, so any fuel ≥ `l.length`
is exact.  A chunk size of 0 never occurs — both batch sizes are 100. -/
def chunkedF {α : Type _} : ℕ → ℕ → List α → List (List α)
  | _, _, [] => []
  | _, 0, _ :: _ => []
  | 0, _ + 1, _ :: _ => []
  | fuel + 1, n + 1, x :: xs =>
    (x :: xs).take (n + 1) :: chunkedF fuel (n + 1) ((x :: xs).drop (n + 1))

def chunked {α : Type _} (n : ℕ) (l : List α) : List (List α) :=
  chunkedF l.length n l

/-- `playlist_remove_all_occurrences_of_items(playlist_id, batch)`: every
occurrence of every uri in `batch` is removed from the playlist. -/
def remove_all_occurrences (playlist batch : List (List Char)) : List (List Char) :=
  playlist.filter (fun u => !(batch.contains u))

/-- `playlist_add_items(playlist_id, batch)`: the batch is appended at the
end of the playlist. -/
def add_items (playlist batch : List (List Char)) : List (List Char) :=
  playlist ++ batch

/-- The mutation phase of `main` after resolution, interpreted over a
local playlist (its list of uris): in overwrite mode with a non-empty
existing list the existing uris are removed in `REMOVE_BATCH_SIZE`
batches; then `uris_to_add` (per `reconcile`) is added in
`ADD_BATCH_SIZE` batches. -/
def execute_sync (mode : Mode) (found existing playlist : List (List Char)) :
    List (List Char) :=
  let p1 :=
    if mode = Mode.overwrite ∧ existing ≠ [] then
      (chunked REMOVE_BATCH_SIZE existing).foldl remove_all_occurrences playlist
    else playlist
  (chunked ADD_BATCH_SIZE (reconcile mode found existing).1).foldl add_items p1

/-- The backend calls `main` can issue after the resolution loop. -/
inductive Action
  | currentUser
  | playlistList
  | createPlaylist
  | playlistItems
  | removeBatch (batch : List (List Char))
  | addBatch (batch : List (List Char))
deriving DecidableEq

/-- The ordered trace of backend calls `main` issues after the resolution
loop: when no uri resolved, `if not found_uris: sys.exit(1)` aborts the
run before any backend call; otherwise user lookup, playlist search,
creation when the name lookup failed, membership fetch, the overwrite
removal batches, and the add batches. -/
def run_actions (found existing : List (List Char))
    (overwrite playlistMissing : Bool) : List Action :=
  if found = [] then []
  else
    [Action.currentUser, Action.playlistList]
      ++ (if playlistMissing then [Action.createPlaylist] else [])
      ++ [Action.playlistItems]
      ++ (if overwrite ∧ existing ≠ [] then
            (chunked REMOVE_BATCH_SIZE existing).map Action.removeBatch
          else [])
      ++ (chunked ADD_BATCH_SIZE
            (reconcile (if overwrite then Mode.overwrite else Mode.append)
              found existing).1).map Action.addBatch

/-! ### C6, C7, C9 -/

/-- C9: when zero entries resolved to any uri the run terminates fatally
before any backend interaction: the post-resolution trace is empty — in
particular no playlist creation, no membership fetch, no removal and no
addition is ever issued. -/
theorem abort_on_zero_resolved :
    ∀ (existing : List (List Char)) (overwrite playlistMissing : Bool),
      run_actions [] existing overwrite playlistMissing = [] := by
  intro existing ow pm
  unfold run_actions
  rw [if_pos rfl]

theorem chunkedF_flatten {α : Type _} :
    ∀ (fuel n : ℕ) (l : List α), n ≠ 0 → l.length ≤ fuel →
      (chunkedF fuel n l).flatten = l := by
  intro fuel
  induction fuel with
  | zero =>
    intro n l _ hlen
    have hl : l = [] := List.eq_nil_of_length_eq_zero (Nat.le_zero.mp hlen)
    subst hl
    cases n <;> rfl
  | succ f ih =>
    intro n l hn hlen
    cases l with
    | nil => cases n <;> rfl
    | cons x xs =>
      cases n with
      | zero => exact absurd rfl hn
      | succ m =>
        unfold chunkedF
        rw [List.flatten_cons]
        rw [ih (m + 1) ((x :: xs).drop (m + 1)) (Nat.succ_ne_zero m) (by
          rw [List.length_drop]
          simp only [List.length_cons] at hlen ⊢
          omega)]
        exact List.take_append_drop _ _

theorem chunked_flatten {α : Type _} (n : ℕ) (hn : n ≠ 0) (l : List α) :
    (chunked n l).flatten = l :=
  chunkedF_flatten l.length n l hn (le_refl _)

theorem foldl_add_items :
    ∀ (bs : List (List (List Char))) (p : List (List Char)),
      bs.foldl add_items p = p ++ bs.flatten := by
  intro bs
  induction bs with
  | nil => intro p; simp
  | cons b bs' ih =>
    intro p
    rw [List.foldl_cons, ih, List.flatten_cons]
    unfold add_items
    rw [List.append_assoc]

theorem foldl_remove_covered :
    ∀ (bs : List (List (List Char))) (p : List (List Char)),
      (∀ u ∈ p, ∃ b ∈ bs, u ∈ b) →
      bs.foldl remove_all_occurrences p = [] := by
  intro bs
  induction bs with
  | nil =>
    intro p h
    have : p = [] := List.eq_nil_iff_forall_not_mem.mpr (fun u hu => by
      rcases h u hu with ⟨b, hb, _⟩
      simp at hb)
    rw [this]
    rfl
  | cons b bs' ih =>
    intro p h
    rw [List.foldl_cons]
    apply ih
    intro u hu
    unfold remove_all_occurrences at hu
    rw [List.mem_filter] at hu
    obtain ⟨hup, hnb⟩ := hu
    rcases h u hup with ⟨b0, hb0, hub0⟩
    rcases List.mem_cons.mp hb0 with h' | h'
    · subst h'
      rw [show b0.contains u = true from by simp [List.contains, List.elem_iff, hub0]] at hnb
      simp at hnb
    · exact ⟨b0, h', hub0⟩

/-- C7: overwrite-mode synchronization: `to_remove` is the whole existing
list and `to_add` the whole found list (including uris already present
before the clear); executing the batched mutations over any playlist whose
uris all appear in the existing set leaves exactly the found uris — every
prior uri removed, every desired uri added, re-additions included. -/
theorem overwrite_sync :
    ∀ (found existing playlist : List (List Char)),
      (∀ u ∈ playlist, u ∈ existing) →
      reconcile Mode.overwrite found existing = (found, existing)
      ∧ execute_sync Mode.overwrite found existing playlist = found := by
  intro found existing playlist hcov
  refine ⟨rfl, ?_⟩
  unfold execute_sync
  by_cases hex : existing = []
  · subst hex
    rw [if_neg (fun h => h.2 rfl)]
    have hp : playlist = [] :=
      List.eq_nil_iff_forall_not_mem.mpr (fun u hu => by simpa using hcov u hu)
    subst hp
    rw [foldl_add_items]
    rw [show (reconcile Mode.overwrite found []).1 = found from rfl]
    rw [chunked_flatten ADD_BATCH_SIZE (by decide) found]
    rfl
  · rw [if_pos ⟨rfl, hex⟩]
    rw [foldl_remove_covered _ _ (fun u hu => by
      have hue : u ∈ existing := hcov u hu
      have : u ∈ (chunked REMOVE_BATCH_SIZE existing).flatten := by
        rw [chunked_flatten REMOVE_BATCH_SIZE (by decide) existing]
        exact hue
      exact List.mem_flatten.mp this)]
    rw [foldl_add_items]
    rw [show (reconcile Mode.overwrite found existing).1 = found from rfl]
    rw [chunked_flatten ADD_BATCH_SIZE (by decide) found]
    rfl

/-- C7 (witness): scenario C: existing `{u1, u2}`, desired `{u2, u3}`:
`to_remove = [u1, u2]`, `to_add = [u2, u3]`, and running the mutations over
the playlist `[u1, u2]` yields `[u2, u3]` (u2 re-added after removal). -/
theorem overwrite_sync_witness :
    reconcile Mode.overwrite ["u2".data, "u3".data] ["u1".data, "u2".data]
        = (["u2".data, "u3".data], ["u1".data, "u2".data])
    ∧ execute_sync Mode.overwrite ["u2".data, "u3".data] ["u1".data, "u2".data]
        ["u1".data, "u2".data] = ["u2".data, "u3".data] :=
  overwrite_sync ["u2".data, "u3".data] ["u1".data, "u2".data]
    ["u1".data, "u2".data] (by decide)

/-- C6 (amended): append-mode reconciliation: nothing is removed; `to_add`
is the order-preserving filter of the found uris by non-membership in the
existing set, keeping every occurrence (duplicates among the found uris
are NOT collapsed to their first occurrence); and folding the first run's
additions into the existing set makes a second append run a no-op
(`to_add = []`). -/
theorem append_reconcile :
    ∀ (found existing : List (List Char)),
      (reconcile Mode.append found existing).2 = []
      ∧ ((reconcile Mode.append found existing).1).Sublist found
      ∧ (∀ u, u ∈ (reconcile Mode.append found existing).1 ↔ (u ∈ found ∧ u ∉ existing))
      ∧ (∀ u, u ∉ existing →
          ((reconcile Mode.append found existing).1).count u = found.count u)
      ∧ (reconcile Mode.append found
          (existing ++ (reconcile Mode.append found existing).1)).1 = [] := by
  intro found existing
  refine ⟨rfl, List.filter_sublist _, ?_, ?_, ?_⟩
  · intro u
    unfold reconcile
    rw [List.mem_filter]
    simp [List.contains, List.elem_iff]
  · intro u hu
    apply List.count_filter
    simp [List.contains, List.elem_iff, hu]
  · simp only [reconcile]
    rw [List.filter_eq_nil_iff]
    intro u hu hcontra
    have hmem2 : u ∈ existing ++ found.filter (fun v => !(existing.contains v)) := by
      by_cases hex : u ∈ existing
      · exact List.mem_append_left _ hex
      · exact List.mem_append_right _
          (List.mem_filter.mpr ⟨hu, by simp [List.contains, List.elem_iff, hex]⟩)
    have hc2 : (existing ++ found.filter (fun v => !(existing.contains v))).contains u
        = true := by
      simp only [List.contains, List.elem_iff]
      exact hmem2
    rw [hc2] at hcontra
    simp at hcontra

/-- C6 (counterexample): duplicates among the found uris are kept, not
collapsed: found `["x", "x"]` against an empty existing set gives
`to_add = ["x", "x"]`, not the claimed first-occurrence-only `["x"]`. -/
theorem append_reconcile_dup_cex :
    (reconcile Mode.append ["x".data, "x".data] []).1 = ["x".data, "x".data]
    ∧ (reconcile Mode.append ["x".data, "x".data] []).1 ≠ ["x".data] := by
  exact ⟨by decide, by decide⟩

/-- C6 (witness): the amended statement applied at found `["x", "y"]`,
existing `["y"]`: nothing removed, the count of "x" is preserved by the
filter, and a second run after folding in the additions is a no-op. -/
theorem append_reconcile_witness :
    (reconcile Mode.append ["x".data, "y".data] ["y".data]).2 = []
    ∧ (reconcile Mode.append ["x".data, "y".data] ["y".data]).1.count "x".data
        = (["x".data, "y".data] : List (List Char)).count "x".data
    ∧ (reconcile Mode.append ["x".data, "y".data]
        (["y".data] ++ (reconcile Mode.append ["x".data, "y".data] ["y".data]).1)).1 = [] :=
  ⟨(append_reconcile ["x".data, "y".data] ["y".data]).1,
   (append_reconcile ["x".data, "y".data] ["y".data]).2.2.2.1 "x".data (by decide),
   (append_reconcile ["x".data, "y".data] ["y".data]).2.2.2.2⟩

end SpotifyUpload
